import Mathlib

/-!
Shallow embedding of the `us_tracker` repository's data model and the
operations its specification talks about.  Python `int` values are
modelled as `Int`, Python `float` values as exact rationals (`Rat`),
and raised exceptions as `Except` errors.  Each definition mirrors one
function of the source; theorems below settle the spec claims.
-/

/-- The Python exceptions caught (or raised) by the scripts. -/
inductive PyErr where
  | valueError
  | keyError
  | zeroDivisionError
deriving DecidableEq, Repr

/-! ### Python strings and numeric primitives used by the scripts

Python strings are modelled as lists of characters; `<` on them and
`str.upper()` are the usual code-point-wise operations. -/

abbrev PyStr := List Char

/-- The whitespace stripped by `int()` / `float()` / `str.strip()`. -/
def isSpaceChar (c : Char) : Bool :=
  c = ' ' || c = '\t' || c = '\n' || c = '\r'

def trimChars (cs : List Char) : List Char :=
  ((cs.dropWhile isSpaceChar).reverse.dropWhile isSpaceChar).reverse

/-- Python string comparison `a < b`: lexicographic by code point. -/
def pyStrLt : List Char → List Char → Bool
  | [], [] => false
  | [], _ :: _ => true
  | _ :: _, [] => false
  | a :: as, b :: bs => if a < b then true else if b < a then false else pyStrLt as bs

/-- Python `str.upper()` (the keys are ASCII). -/
def pyUpper (s : PyStr) : PyStr := s.map Char.toUpper

/-- Numeric value of a list of decimal digit characters. -/
def digitsVal (cs : List Char) : Nat :=
  cs.foldl (fun a c => 10 * a + (c.toNat - 48)) 0

/-- All characters are decimal digits. -/
def allDigits (cs : List Char) : Bool :=
  cs.all (fun c => c.isDigit)

/-- `int(s)` on a trimmed character list: optional sign then a nonempty
run of digits; `none` models a raised `ValueError`. -/
def pyIntCore : List Char → Option Int
  | '-' :: rest =>
      if rest ≠ [] ∧ allDigits rest then some (-(digitsVal rest : Int)) else none
  | '+' :: rest =>
      if rest ≠ [] ∧ allDigits rest then some (digitsVal rest : Int) else none
  | cs =>
      if cs ≠ [] ∧ allDigits cs then some (digitsVal cs : Int) else none

/-- Python `int(s)` (decimal literals; surrounding whitespace stripped). -/
def pyInt (s : PyStr) : Option Int :=
  pyIntCore (trimChars s)

/-- Unsigned decimal literal with an optional single point, as accepted
by Python `float(s)` on the CSV fields (which are plain decimals). -/
def pyFloatMag (cs : List Char) : Option Rat :=
  match cs.splitOn '.' with
  | [w] => if w ≠ [] ∧ allDigits w then some (digitsVal w : Rat) else none
  | [w, f] =>
      if (w ≠ [] ∨ f ≠ []) ∧ allDigits w ∧ allDigits f then
        some ((digitsVal w : Rat) + (digitsVal f : Rat) / 10 ^ f.length)
      else none
  | _ => none

/-- Python `float(s)` on the decimal strings appearing in the data;
`none` models a raised `ValueError`. -/
def pyFloat (s : PyStr) : Option Rat :=
  match trimChars s with
  | '-' :: rest => (pyFloatMag rest).map (fun q => -q)
  | '+' :: rest => pyFloatMag rest
  | cs => pyFloatMag cs

/-- Python `int(x)` on a float: truncation toward zero. -/
def ratTrunc (q : Rat) : Int :=
  if 0 ≤ q then ⌊q⌋ else ⌈q⌉

/-- Python `round` to the nearest integer, ties to even (banker's
rounding), on the exact rational value. -/
def pyRoundInt (q : Rat) : Int :=
  if q - ⌊q⌋ < 1 / 2 then ⌊q⌋
  else if 1 / 2 < q - ⌊q⌋ then ⌊q⌋ + 1
  else if 2 ∣ ⌊q⌋ then ⌊q⌋ else ⌊q⌋ + 1

/-- Python `round(q, d)` for `d ≥ 0` digits. -/
def pyRound (q : Rat) (d : Nat) : Rat :=
  (pyRoundInt (q * 10 ^ d) : Rat) / 10 ^ d

/-! ### direct_plot.py: derived daily series

`Day.compute_pcts_velocities_accelerations` walks `Day.all_days` from
index 1 and `Day.compute_vel_acc` sets each `vel` column of day `n` to
`dep[n] - dep[n-1]`, where `dep` is the depended cumulative series
(`conf_num` for `daily_conf`, `deaths_num` for `daily_deaths`); day 0
keeps the value 0 installed by `Day.__init__`.  The series of one
column is modelled as a list of integers. -/

def computeVel (dep : List Int) : List Int :=
  (List.range' 1 (dep.length - 1)).foldl
    (fun days n => days.set n (dep.getD n 0 - dep.getD (n - 1) 0))
    (List.replicate dep.length 0)

/-- `us_tracker.process_file`: `new_cases = [0] * len(dates)` then for
`n in range(1, len(dates))`, `new_cases[n] = accumulator[n] -
accumulator[n-1]`. -/
def processFileNewCases (accumulator : List Int) : List Int :=
  (List.range' 1 (accumulator.length - 1)).foldl
    (fun nc n => nc.set n (accumulator.getD n 0 - accumulator.getD (n - 1) 0))
    (List.replicate accumulator.length 0)

/-- `Day.compute_active` runs `compute_active_today` for
`n in range(15, len(all_days))` against `healed_day = all_days[n-14]`;
`compute_active_today` sets the active column to
`conf[n] - (conf[n-14] + (deaths[n] - deaths[n-14]))`.  Days with index
below 15 keep the 0 installed by `Day.__init__`. -/
def computeActive (conf deaths : List Int) : List Int :=
  (List.range' 15 (conf.length - 15)).foldl
    (fun act n =>
      act.set n
        (conf.getD n 0 - (conf.getD (n - 14) 0 + (deaths.getD n 0 - deaths.getD (n - 14) 0))))
    (List.replicate conf.length 0)

/-! Generic facts about a left fold of `List.set` over a list of indices. -/

theorem length_foldl_set (f : Nat → Int) :
    ∀ (idxs : List Nat) (init : List Int),
      (idxs.foldl (fun acc n => acc.set n (f n)) init).length = init.length := by
  intro idxs
  induction idxs with
  | nil => intro init; rfl
  | cons n rest ih =>
      intro init
      simp only [List.foldl_cons]
      rw [ih]
      exact List.length_set init n (f n)

theorem getElem?_foldl_set_notMem (f : Nat → Int) :
    ∀ (idxs : List Nat) (init : List Int) (i : Nat), i ∉ idxs →
      (idxs.foldl (fun acc n => acc.set n (f n)) init)[i]? = init[i]? := by
  intro idxs
  induction idxs with
  | nil => intro init i _; rfl
  | cons n rest ih =>
      intro init i hi
      simp only [List.mem_cons, not_or] at hi
      simp only [List.foldl_cons]
      rw [ih _ _ hi.2, List.getElem?_set_ne (fun h => hi.1 h.symm)]

theorem getElem?_foldl_set_mem (f : Nat → Int) :
    ∀ (idxs : List Nat) (init : List Int) (i : Nat), idxs.Nodup → i ∈ idxs →
      i < init.length →
      (idxs.foldl (fun acc n => acc.set n (f n)) init)[i]? = some (f i) := by
  intro idxs
  induction idxs with
  | nil => intro _ _ _ h; exact absurd h (List.not_mem_nil _)
  | cons n rest ih =>
      intro init i hnd hi hlen
      simp only [List.foldl_cons]
      rcases List.mem_cons.mp hi with h | h
      · subst h
        rw [getElem?_foldl_set_notMem f rest _ i (List.nodup_cons.mp hnd).1]
        rw [List.getElem?_set_self]
        simp [hlen]
      · exact ih _ i (List.nodup_cons.mp hnd).2 h (by simpa using hlen)

theorem foldl_set_range'_spec (f : Nat → Int) (s : Nat) (len : Nat) (n : Nat)
    (hn : n < len) :
    ((List.range' s (len - s)).foldl (fun acc k => acc.set k (f k))
        (List.replicate len (0 : Int)))[n]? =
      some (if s ≤ n then f n else 0) := by
  by_cases hs : s ≤ n
  · rw [if_pos hs]
    apply getElem?_foldl_set_mem f _ _ _ (List.nodup_range' ..)
    · exact List.mem_range'_1.mpr ⟨hs, by omega⟩
    · simpa using hn
  · rw [if_neg hs]
    rw [getElem?_foldl_set_notMem f _ _ _ (by
      intro hmem
      exact hs (List.mem_range'_1.mp hmem).1)]
    simp [List.getElem?_replicate, hn]

/-- C3: for consecutive days the `vel` columns hold today's depended
cumulative value minus yesterday's (`daily_conf` from `conf_num`,
`daily_deaths` from `deaths_num`), day 0 keeps its initialized 0, and
`us_tracker.process_file` computes `new_cases` by the same
today-minus-yesterday rule with `new_cases[0] = 0`. -/
theorem claim_C3_daily_delta (dep : List Int) (n : Nat) (hn : n < dep.length) :
    (computeVel dep)[n]? =
        some (if n = 0 then 0 else dep.getD n 0 - dep.getD (n - 1) 0)
      ∧ processFileNewCases dep = computeVel dep := by
  constructor
  · have h := foldl_set_range'_spec
      (fun k => dep.getD k 0 - dep.getD (k - 1) 0) 1 dep.length n hn
    by_cases h0 : n = 0
    · subst h0
      simp only [if_neg (by omega : ¬ (1 : Nat) ≤ 0)] at h
      simpa [computeVel] using h
    · simp only [if_pos (by omega : 1 ≤ n)] at h
      rw [if_neg h0]
      simpa [computeVel] using h
  · rfl

theorem claim_C3_daily_delta_witness :
    (computeVel [3, 5, 2])[1]? = some 2
      ∧ processFileNewCases [3, 5, 2] = computeVel [3, 5, 2] := by
  have h := claim_C3_daily_delta [3, 5, 2] 1 (by decide)
  exact ⟨h.1.trans (by decide), h.2⟩

/-- C9: for day index `n ≥ 15`, `compute_active` sets `computed_active`
to `conf[n] - conf[n-14] - (deaths[n] - deaths[n-14])`, and every day
with index `n < 15` keeps the initialized value 0. -/
theorem claim_C9_computed_active (conf deaths : List Int) (n : Nat)
    (hn : n < conf.length) :
    (computeActive conf deaths)[n]? =
      some (if 15 ≤ n then
              conf.getD n 0 - conf.getD (n - 14) 0
                - (deaths.getD n 0 - deaths.getD (n - 14) 0)
            else 0) := by
  have h := foldl_set_range'_spec
    (fun k =>
      conf.getD k 0 - (conf.getD (k - 14) 0 + (deaths.getD k 0 - deaths.getD (k - 14) 0)))
    15 conf.length n hn
  by_cases h15 : 15 ≤ n
  · rw [if_pos h15]
    rw [show conf.getD n 0 - conf.getD (n - 14) 0
          - (deaths.getD n 0 - deaths.getD (n - 14) 0)
        = conf.getD n 0
          - (conf.getD (n - 14) 0 + (deaths.getD n 0 - deaths.getD (n - 14) 0)) by ring]
    simp only [if_pos h15] at h
    simpa [computeActive] using h
  · rw [if_neg h15]
    simp only [if_neg h15] at h
    simpa [computeActive] using h

theorem claim_C9_computed_active_witness :
    (computeActive (List.replicate 16 7) (List.replicate 16 1))[15]? = some 0
      ∧ (computeActive (List.replicate 16 7) (List.replicate 16 1))[3]? = some 0 := by
  have h1 := claim_C9_computed_active
    (List.replicate 16 7) (List.replicate 16 1) 15 (by decide)
  have h2 := claim_C9_computed_active
    (List.replicate 16 7) (List.replicate 16 1) 3 (by decide)
  exact ⟨h1.trans (by decide), h2.trans (by decide)⟩

/-! ### direct_plot.py: Day.compute_rolling_average

The method walks `Day.all_days` in order, appending each day's depended
value (`daily_conf` or `daily_deaths`) to `past_accelerations` and
setting the column to `round(statistics.mean(past_accelerations[-args.days:]), 2)`. -/

/-- Python slice `l[-days:]` for a nonnegative `days`. -/
def pySliceLast (l : List Rat) (days : Nat) : List Rat :=
  if days = 0 then l else l.drop (l.length - days)

/-- `statistics.mean` (the accumulated window is never empty). -/
def pyMean (l : List Rat) : Rat :=
  l.sum / (l.length : Rat)

def rollLoop (days : Nat) : List Rat → List Rat → List Rat
  | _, [] => []
  | past, v :: rest =>
      pyRound (pyMean (pySliceLast (past ++ [v]) days)) 2
        :: rollLoop days (past ++ [v]) rest

def computeRollingAverage (dep : List Rat) (days : Nat) : List Rat :=
  rollLoop days [] dep

/-- The window the code averages on day `n`: the last `args.days` slice
of the values accumulated so far. -/
def windowUsed (dep : List Rat) (days : Nat) (n : Nat) : List Rat :=
  pySliceLast (dep.take (n + 1)) days

theorem rollLoop_getElem? (days : Nat) :
    ∀ (dep past : List Rat) (n : Nat), n < dep.length →
      (rollLoop days past dep)[n]? =
        some (pyRound (pyMean (pySliceLast (past ++ dep.take (n + 1)) days)) 2) := by
  intro dep
  induction dep with
  | nil => intro _ n hn; exact absurd hn (by simp)
  | cons v rest ih =>
      intro past n hn
      cases n with
      | zero => simp [rollLoop]
      | succ m =>
          have hm : m < rest.length := by simpa using hn
          simp only [rollLoop, List.getElem?_cons_succ]
          rw [ih (past ++ [v]) m hm]
          simp [List.append_assoc]

theorem length_pySliceLast (l : List Rat) (days : Nat) (hd : 1 ≤ days) :
    (pySliceLast l days).length = min l.length days := by
  rw [pySliceLast, if_neg (by omega)]
  simp only [List.length_drop]
  omega

/-- C2 counterexample: on a one-day series with the default
`args.days = 7`, day 0 is averaged over a window of a single entry, not
over `args.days = 7` entries as the claim asserts for every day. -/
theorem claim_C2_rolling_average_counterexample :
    0 < ([(5 : Rat)]).length ∧ (windowUsed [(5 : Rat)] 7 0).length ≠ 7 := by
  constructor
  · decide
  · show (pySliceLast ([(5 : Rat)].take 1) 7).length ≠ 7
    decide

/-- C2 (amended): for `args.days ≥ 1`, `compute_rolling_average` sets
the column of day `n` to the mean, rounded to 2 decimals, of the
trailing window of the depended daily series accumulated so far; that
window has `min (n + 1) args.days` entries, so it only reaches the
fixed size `args.days` from day `args.days - 1` on. -/
theorem claim_C2_rolling_average (dep : List Rat) (days : Nat) (hd : 1 ≤ days)
    (n : Nat) (hn : n < dep.length) :
    (computeRollingAverage dep days)[n]? =
        some (pyRound (pyMean (windowUsed dep days n)) 2)
      ∧ (windowUsed dep days n).length = min (n + 1) days := by
  constructor
  · rw [computeRollingAverage, rollLoop_getElem? days dep [] n hn]
    rfl
  · rw [windowUsed, length_pySliceLast _ _ hd, List.length_take]
    omega

theorem claim_C2_rolling_average_witness :
    (computeRollingAverage [1, 3] 7)[1]? = some 2
      ∧ (windowUsed [1, 3] 7 1).length = min 2 7 := by
  have h := claim_C2_rolling_average [1, 3] 7 (by decide) 1 (by decide)
  refine ⟨h.1.trans ?_, h.2⟩
  norm_num [windowUsed, pySliceLast, pyMean, pyRound, pyRoundInt]

/-! ### load_database.py: LineDatum

A CSV line as produced by `csv.DictReader`: a field is `none` when the
file's header lacks the column (looking it up raises `KeyError`),
otherwise the raw string (possibly blank or malformed). -/

structure CsvLine where
  confirmed : Option PyStr
  deaths : Option PyStr
  recovered : Option PyStr
  active : Option PyStr
  incidence_rate : Option PyStr
  case_fatality_ratio : Option PyStr

structure LineDatum where
  confirmed : Int
  deaths : Int
  recovered : Int
  active : Int
  incidence_rate : Rat
  case_fatality_ratio : Rat
deriving DecidableEq

/-- `line['K']`: raises `KeyError` when the column is absent. -/
def pyLookup (v : Option PyStr) : Except PyErr PyStr :=
  match v with
  | none => Except.error PyErr.keyError
  | some s => Except.ok s

/-- `int(s)`: raises `ValueError` on a blank or malformed field. -/
def pyIntE (s : PyStr) : Except PyErr Int :=
  match pyInt s with
  | none => Except.error PyErr.valueError
  | some n => Except.ok n

/-- `float(s)`: raises `ValueError` on a blank or malformed field. -/
def pyFloatE (s : PyStr) : Except PyErr Rat :=
  match pyFloat s with
  | none => Except.error PyErr.valueError
  | some q => Except.ok q

/-- `try: ... except ValueError: default`. -/
def catchValueError (x : Except PyErr α) (dflt : α) : Except PyErr α :=
  match x with
  | Except.error PyErr.valueError => Except.ok dflt
  | other => other

/-- `try: ... except (ValueError, KeyError): default`. -/
def catchValueKeyError (x : Except PyErr α) (dflt : α) : Except PyErr α :=
  match x with
  | Except.error PyErr.valueError => Except.ok dflt
  | Except.error PyErr.keyError => Except.ok dflt
  | other => other

/-- `LineDatum.__init__`, one guarded assignment per tracked column. -/
def mkLineDatum (line : CsvLine) : Except PyErr LineDatum := do
  let confirmed ← catchValueError
    (do pyIntE (← pyLookup line.confirmed)) 0
  let deaths ← catchValueError
    (do pure (ratTrunc (← pyFloatE (← pyLookup line.deaths)))) 0
  let recovered ← catchValueError
    (do pyIntE (← pyLookup line.recovered)) 0
  let active ← catchValueKeyError
    (do pyIntE (← pyLookup line.active)) 0
  let incidence_rate ← catchValueKeyError
    (do pyFloatE (← pyLookup line.incidence_rate)) 0
  let case_fatality_ratio ← catchValueKeyError
    (do pure (pyRound (← pyFloatE (← pyLookup line.case_fatality_ratio)) 4)) 0
  pure { confirmed := confirmed, deaths := deaths, recovered := recovered,
         active := active, incidence_rate := incidence_rate,
         case_fatality_ratio := case_fatality_ratio }

theorem fieldInt_present (c : PyStr) :
    catchValueError (do pyIntE (← pyLookup (some c))) 0
      = Except.ok ((pyInt c).getD 0) := by
  cases h : pyInt c <;>
    simp [pyLookup, pyIntE, catchValueError, h, Bind.bind, Except.bind]

theorem fieldFloatTrunc_present (d : PyStr) :
    catchValueError (do pure (ratTrunc (← pyFloatE (← pyLookup (some d))))) 0
      = Except.ok (((pyFloat d).map ratTrunc).getD 0) := by
  cases h : pyFloat d <;>
    simp [pyLookup, pyFloatE, catchValueError, h, Bind.bind, Except.bind, pure, Except.pure]

theorem fieldIntOpt (v : Option PyStr) :
    catchValueKeyError (do pyIntE (← pyLookup v)) 0
      = Except.ok ((v.bind pyInt).getD 0) := by
  cases v with
  | none => simp [pyLookup, catchValueKeyError, Bind.bind, Except.bind]
  | some s =>
      cases h : pyInt s <;>
        simp [pyLookup, pyIntE, catchValueKeyError, h, Bind.bind, Except.bind]

theorem fieldFloatOpt (v : Option PyStr) :
    catchValueKeyError (do pyFloatE (← pyLookup v)) 0
      = Except.ok ((v.bind pyFloat).getD 0) := by
  cases v with
  | none => simp [pyLookup, catchValueKeyError, Bind.bind, Except.bind]
  | some s =>
      cases h : pyFloat s <;>
        simp [pyLookup, pyFloatE, catchValueKeyError, h, Bind.bind, Except.bind]

theorem fieldCfrOpt (v : Option PyStr) :
    catchValueKeyError (do pure (pyRound (← pyFloatE (← pyLookup v)) 4)) 0
      = Except.ok (((v.bind pyFloat).map (fun q => pyRound q 4)).getD 0) := by
  cases v with
  | none => simp [pyLookup, catchValueKeyError, Bind.bind, Except.bind]
  | some s =>
      cases h : pyFloat s <;>
        simp [pyLookup, pyFloatE, catchValueKeyError, h, Bind.bind, Except.bind, pure,
          Except.pure]

theorem mkLineDatum_eval (line : CsvLine) (c d r : PyStr)
    (hc : line.confirmed = some c) (hd : line.deaths = some d)
    (hr : line.recovered = some r) :
    mkLineDatum line = Except.ok
      { confirmed := (pyInt c).getD 0
        deaths := ((pyFloat d).map ratTrunc).getD 0
        recovered := (pyInt r).getD 0
        active := (line.active.bind pyInt).getD 0
        incidence_rate := (line.incidence_rate.bind pyFloat).getD 0
        case_fatality_ratio :=
          ((line.case_fatality_ratio.bind pyFloat).map (fun q => pyRound q 4)).getD 0 } := by
  rw [mkLineDatum, hc, hd, hr]
  rw [fieldInt_present, fieldFloatTrunc_present, fieldInt_present, fieldIntOpt,
    fieldFloatOpt, fieldCfrOpt]
  rfl

/-- C4: constructing a `LineDatum` from a line that has the always
present `Confirmed`, `Deaths` and `Recovered` columns never raises: a
blank or malformed numeric field raises `ValueError` internally (or
`KeyError` for the possibly-absent `Active`, `Incidence_rate` and
`Case-Fatality_Ratio` columns) and the field is set to the default 0
(0.0 for the two float fields) instead of the error propagating. -/
theorem claim_C4_line_datum_total (line : CsvLine) (c d r : PyStr)
    (hc : line.confirmed = some c) (hd : line.deaths = some d)
    (hr : line.recovered = some r) :
    mkLineDatum line = Except.ok
      { confirmed := (pyInt c).getD 0
        deaths := ((pyFloat d).map ratTrunc).getD 0
        recovered := (pyInt r).getD 0
        active := (line.active.bind pyInt).getD 0
        incidence_rate := (line.incidence_rate.bind pyFloat).getD 0
        case_fatality_ratio :=
          ((line.case_fatality_ratio.bind pyFloat).map (fun q => pyRound q 4)).getD 0 } :=
  mkLineDatum_eval line c d r hc hd hr

theorem claim_C4_line_datum_total_witness :
    mkLineDatum
        { confirmed := some ['1', '2'], deaths := some [],
          recovered := some [' ', '7', ' '], active := some ['a', 'b', 'c'],
          incidence_rate := none, case_fatality_ratio := none }
      = Except.ok
        { confirmed := 12, deaths := 0, recovered := 7, active := 0,
          incidence_rate := 0, case_fatality_ratio := 0 } := by
  have h := claim_C4_line_datum_total
    { confirmed := some ['1', '2'], deaths := some [],
      recovered := some [' ', '7', ' '], active := some ['a', 'b', 'c'],
      incidence_rate := none, case_fatality_ratio := none }
    ['1', '2'] [] [' ', '7', ' '] rfl rfl rfl
  rw [h]
  simp only [Except.ok.injEq]
  decide

/-! ### direct_plot.py: Day.compute_pct -/

/-- Value stored in a `pct` column: a number, or the empty string that
the `ZeroDivisionError` handler assigns. -/
inductive PctValue where
  | num (q : Rat)
  | blank
deriving DecidableEq

/-- Python division: raises `ZeroDivisionError` on a zero divisor. -/
def pyDiv (a b : Rat) : Except PyErr Rat :=
  if b = 0 then Except.error PyErr.zeroDivisionError else Except.ok (a / b)

/-- `Day.compute_pct` for one `pct` column.  `value` is
`getattr(self, depended_field)` guarded by `except AttributeError`
(modelled as an `Option`, missing ↦ 0); `base` is
`getattr(self, depended_field2)`, looked up unguarded. -/
def computePct (value : Option Rat) (base : Rat) : PctValue :=
  match (do
      let q ← pyDiv (value.getD 0) base
      pure (pyRound (100 * q) 1) : Except PyErr Rat) with
  | Except.ok q => PctValue.num q
  | Except.error _ => PctValue.blank

/-- C5: `compute_pct` sets a `pct` column to
`round(100.0 * value / base, 1)` with a missing value field counting
as 0, and to the empty string when `base` is zero, the
`ZeroDivisionError` being caught instead of propagating. -/
theorem claim_C5_compute_pct (value : Option Rat) (base : Rat) :
    computePct value base =
      if base = 0 then PctValue.blank
      else PctValue.num (pyRound (100 * value.getD 0 / base) 1) := by
  by_cases hb : base = 0 <;>
    simp [computePct, pyDiv, hb, Bind.bind, Except.bind, pure, Except.pure, mul_div_assoc]

/-! ### load_database.py: refresh_lines and its stored-row lookup -/

/-- One row of the `datum` table, in the column order fetched by
`get_all_db_records_for_day` (`SELECT * FROM datum ...`) and unpacked
by `DbDatum.__init__`. -/
structure DbRow where
  id : Int
  ordinal_date : Int
  location_jhu_key : PyStr
  confirmed : Int
  deaths : Int
  recovered : Int
  active : Int
  incidence_rate : Rat
  case_fatality_ratio : Rat
deriving DecidableEq

/-- The six tracked values of a stored row, for comparison with a
freshly parsed `LineDatum`. -/
def datumOfRow (r : DbRow) : LineDatum :=
  { confirmed := r.confirmed, deaths := r.deaths, recovered := r.recovered,
    active := r.active, incidence_rate := r.incidence_rate,
    case_fatality_ratio := r.case_fatality_ratio }

/-- `get_all_db_records_for_day` builds `DbDatum.all_data`, a dict
mapping `jhu_key.upper()` to the row; a later row with the same
upper-cased key overwrites an earlier one. -/
def buildDbData (rows : List DbRow) : PyStr → Option DbRow :=
  rows.foldl
    (fun m r => fun k => if k = pyUpper r.location_jhu_key then some r else m k)
    (fun _ => none)

/-- Effect on one row of the `UPDATE datum SET active=..., ...,
recovered=... WHERE id=:id` statement issued by `refresh_lines`. -/
def updateRow (idv : Int) (nd : LineDatum) (r : DbRow) : DbRow :=
  if r.id = idv then
    { r with
      active := nd.active
      case_fatality_ratio := nd.case_fatality_ratio
      confirmed := nd.confirmed
      deaths := nd.deaths
      incidence_rate := nd.incidence_rate
      recovered := nd.recovered }
  else r

def applyUpdate (db : List DbRow) (idv : Int) (nd : LineDatum) : List DbRow :=
  db.map (updateRow idv nd)

/-- Processing of one file line by `refresh_lines` against the full
`datum` table `db`: parse the line, look the upper-cased key up in the
day's records, skip on `KeyError`, and issue one UPDATE exactly when
any of the six values differs.  Returns the table and the number of
UPDATE statements issued. -/
def refreshLine (db : List DbRow) (od : Int) (key : PyStr) (line : CsvLine) :
    Except PyErr (List DbRow × Nat) := do
  let nd ← mkLineDatum line
  match buildDbData (db.filter (fun r => r.ordinal_date == od)) (pyUpper key) with
  | none => pure (db, 0)
  | some stored =>
      if nd = datumOfRow stored then pure (db, 0)
      else pure (applyUpdate db stored.id nd, 1)

theorem buildDbData_foldl_some (rows : List DbRow) :
    ∀ (m : PyStr → Option DbRow) (k : PyStr) (r : DbRow),
      (rows.foldl
          (fun m r => fun k => if k = pyUpper r.location_jhu_key then some r else m k)
          m) k = some r →
        m k = some r ∨ (r ∈ rows ∧ pyUpper r.location_jhu_key = k) := by
  induction rows with
  | nil => intro m k r h; exact Or.inl h
  | cons r0 rest ih =>
      intro m k r h
      rcases ih _ k r h with h' | h'
      · by_cases hk : k = pyUpper r0.location_jhu_key
        · simp only [if_pos hk] at h'
          obtain rfl : r0 = r := Option.some.inj h'
          exact Or.inr ⟨List.mem_cons_self _ _, hk.symm⟩
        · simp only [if_neg hk] at h'
          exact Or.inl h'
      · exact Or.inr ⟨List.mem_cons_of_mem _ h'.1, h'.2⟩

theorem buildDbData_foldl_isSome (rows : List DbRow) :
    ∀ (m : PyStr → Option DbRow) (k : PyStr),
      ((rows.foldl
          (fun m r => fun k => if k = pyUpper r.location_jhu_key then some r else m k)
          m) k).isSome
        ↔ ((m k).isSome ∨ ∃ r ∈ rows, pyUpper r.location_jhu_key = k) := by
  induction rows with
  | nil => intro m k; simp
  | cons r0 rest ih =>
      intro m k
      rw [List.foldl_cons, ih]
      by_cases hk : k = pyUpper r0.location_jhu_key
      · simp [if_pos hk, hk]
      · simp only [if_neg hk]
        constructor
        · rintro (h | ⟨r, hr, hru⟩)
          · exact Or.inl h
          · exact Or.inr ⟨r, List.mem_cons_of_mem _ hr, hru⟩
        · rintro (h | ⟨r, hr, hru⟩)
          · exact Or.inl h
          · rcases List.mem_cons.mp hr with h' | h'
            · exact absurd (h' ▸ hru).symm hk
            · exact Or.inr ⟨r, h', hru⟩

/-- C1: for a line whose parsed `LineDatum` equals the stored row's six
tracked values, `refresh_lines` leaves the database unchanged and
issues no UPDATE; when any value differs it issues exactly one UPDATE
that sets only the six tracked columns of the rows carrying the
matching id, leaving their `id`, `ordinal_date` and `location_jhu_key`
and every other row (in particular every other row of that day)
unchanged. -/
theorem claim_C1_refresh_line_frame (db : List DbRow) (od : Int) (key : PyStr)
    (line : CsvLine) (nd : LineDatum) (stored : DbRow)
    (hnd : mkLineDatum line = Except.ok nd)
    (hstored : buildDbData (db.filter (fun r => r.ordinal_date == od)) (pyUpper key)
      = some stored) :
    (nd = datumOfRow stored → refreshLine db od key line = Except.ok (db, 0))
    ∧ (nd ≠ datumOfRow stored →
        ∃ db2, refreshLine db od key line = Except.ok (db2, 1)
          ∧ db2.length = db.length
          ∧ ∀ i, i < db.length →
              ∃ old new, db[i]? = some old ∧ db2[i]? = some new
                ∧ (old.id ≠ stored.id → new = old)
                ∧ (old.id = stored.id →
                    new.id = old.id
                    ∧ new.ordinal_date = old.ordinal_date
                    ∧ new.location_jhu_key = old.location_jhu_key
                    ∧ new.active = nd.active
                    ∧ new.case_fatality_ratio = nd.case_fatality_ratio
                    ∧ new.confirmed = nd.confirmed
                    ∧ new.deaths = nd.deaths
                    ∧ new.incidence_rate = nd.incidence_rate
                    ∧ new.recovered = nd.recovered)) := by
  constructor
  · intro he
    simp [refreshLine, hnd, hstored, he, Bind.bind, Except.bind, pure, Except.pure]
  · intro hne
    refine ⟨applyUpdate db stored.id nd, ?_, ?_, ?_⟩
    · simp [refreshLine, hnd, hstored, if_neg hne, Bind.bind, Except.bind, pure,
        Except.pure]
    · simp [applyUpdate]
    · intro i hi
      refine ⟨db[i], updateRow stored.id nd db[i],
        List.getElem?_eq_getElem hi, ?_, ?_, ?_⟩
      · rw [applyUpdate, List.getElem?_map, List.getElem?_eq_getElem hi]
        rfl
      · intro hid
        simp [updateRow, hid]
      · intro hid
        simp [updateRow, hid]

/-- Sample stored row used to instantiate the refresh theorems. -/
def rowW : DbRow :=
  { id := 1, ordinal_date := 5, location_jhu_key := ['a'], confirmed := 2,
    deaths := 0, recovered := 0, active := 0, incidence_rate := 0,
    case_fatality_ratio := 0 }

/-- Sample file line used to instantiate the refresh theorems. -/
def lineW : CsvLine :=
  { confirmed := some ['3'], deaths := some [], recovered := some [],
    active := none, incidence_rate := none, case_fatality_ratio := none }

/-- The parse of `lineW`. -/
def ndW : LineDatum :=
  { confirmed := 3, deaths := 0, recovered := 0, active := 0,
    incidence_rate := 0, case_fatality_ratio := 0 }

theorem mkLineDatum_lineW : mkLineDatum lineW = Except.ok ndW := by
  rw [mkLineDatum_eval lineW ['3'] [] [] rfl rfl rfl]
  simp only [Except.ok.injEq]
  decide

theorem claim_C1_refresh_line_frame_witness :
    ∃ db2, refreshLine [rowW] 5 ['A'] lineW = Except.ok (db2, 1)
      ∧ db2.length = [rowW].length := by
  have hst : buildDbData ([rowW].filter (fun r => r.ordinal_date == 5)) (pyUpper ['A'])
      = some rowW := by decide
  have h := (claim_C1_refresh_line_frame [rowW] 5 ['A'] lineW ndW rowW
    mkLineDatum_lineW hst).2 (by decide)
  obtain ⟨db2, h1, h2, _⟩ := h
  exact ⟨db2, h1, h2⟩

/-- C10: `get_all_db_records_for_day` keys every stored row by its
upper-cased `jhu_key` and `refresh_lines` looks the line's key up
upper-cased, so keys differing only in letter case are diffed against
the same stored row, and a line whose upper-cased key has no stored row
is skipped without error or database change. -/
theorem claim_C10_case_insensitive_matching :
    (∀ (rows : List DbRow) (k : PyStr) (r : DbRow),
        buildDbData rows k = some r → r ∈ rows ∧ pyUpper r.location_jhu_key = k)
    ∧ (∀ (rows : List DbRow) (k : PyStr),
        (buildDbData rows k).isSome ↔ ∃ r ∈ rows, pyUpper r.location_jhu_key = k)
    ∧ (∀ (db : List DbRow) (od : Int) (k1 k2 : PyStr) (line : CsvLine),
        pyUpper k1 = pyUpper k2 → refreshLine db od k1 line = refreshLine db od k2 line)
    ∧ (∀ (db : List DbRow) (od : Int) (key : PyStr) (line : CsvLine) (nd : LineDatum),
        mkLineDatum line = Except.ok nd →
        buildDbData (db.filter (fun r => r.ordinal_date == od)) (pyUpper key) = none →
        refreshLine db od key line = Except.ok (db, 0)) := by
  refine ⟨?_, ?_, ?_, ?_⟩
  · intro rows k r h
    rcases buildDbData_foldl_some rows _ k r h with h' | h'
    · exact absurd h' (by simp)
    · exact h'
  · intro rows k
    rw [buildDbData, buildDbData_foldl_isSome]
    simp
  · intro db od k1 k2 line hk
    rw [refreshLine, refreshLine, hk]
  · intro db od key line nd hnd hnone
    simp [refreshLine, hnd, hnone, Bind.bind, Except.bind, pure, Except.pure]

theorem claim_C10_case_insensitive_matching_witness :
    refreshLine [rowW] 5 ['a'] lineW = refreshLine [rowW] 5 ['A'] lineW
      ∧ refreshLine [rowW] 7 ['a'] lineW = Except.ok ([rowW], 0) := by
  constructor
  · exact claim_C10_case_insensitive_matching.2.2.1 [rowW] 5 ['a'] ['A'] lineW
      (by decide)
  · exact claim_C10_case_insensitive_matching.2.2.2 [rowW] 7 ['a'] lineW ndW
      mkLineDatum_lineW (by decide)

/-! ### load_database.py: needs_refreshing / refresh_files

`record_file_mtime` stores `f'{os.path.getmtime(path)}'`, the decimal
string of the float mtime, in `Loaded.filetime`; `needs_refreshing`
compares that stored string with the freshly formatted on-disk string
using Python string `<` / `>`. -/

/-- `needs_refreshing`, given the `Loaded` record's `filetime` (if any)
and the f-string of the current on-disk mtime. -/
def needsRefreshing (recorded : Option PyStr) (current : PyStr) : Except PyErr Bool :=
  match recorded with
  | none => Except.ok true
  | some t =>
      if pyStrLt current t then Except.error PyErr.valueError
      else Except.ok (pyStrLt t current)

/-- The decision `needs_refreshing` makes when it does not raise. -/
def fileNeedsRefresh (tbl : PyStr → Option PyStr) (fp : PyStr × PyStr) : Bool :=
  match tbl fp.1 with
  | none => true
  | some t => pyStrLt t fp.2

/-- `refresh_files`: walk the files (as pairs of filename and on-disk
mtime string), rediffing those for which `needs_refreshing` is True; a
raised `ValueError` propagates and aborts the walk.  Returns the
filenames passed to `refresh_lines`. -/
def refreshFiles (tbl : PyStr → Option PyStr) :
    List (PyStr × PyStr) → Except PyErr (List PyStr)
  | [] => Except.ok []
  | fp :: rest =>
      match needsRefreshing (tbl fp.1) fp.2 with
      | Except.error e => Except.error e
      | Except.ok false => refreshFiles tbl rest
      | Except.ok true =>
          match refreshFiles tbl rest with
          | Except.error e => Except.error e
          | Except.ok rs => Except.ok (fp.1 :: rs)

theorem pyStrLt_asymm : ∀ a b : List Char, pyStrLt a b = true → pyStrLt b a = false := by
  intro a
  induction a with
  | nil =>
      intro b _
      cases b with
      | nil => rfl
      | cons c cs => rfl
  | cons c cs ih =>
      intro b h
      cases b with
      | nil => exact absurd h (by simp [pyStrLt])
      | cons d ds =>
          by_cases hcd : c < d
          · have hdc : ¬ d < c := fun hdc => absurd hcd (Nat.lt_asymm hdc)
            simp [pyStrLt, hdc, hcd]
          · by_cases hdc : d < c
            · simp [pyStrLt, hcd, hdc] at h
            · simp only [pyStrLt, if_neg hcd, if_neg hdc] at h
              simp [pyStrLt, hcd, hdc, ih ds h]

/-- C6 counterexample: with the recorded mtime string "999999999.5" and
the on-disk mtime string "1600000000.0", the on-disk modification time
is numerically newer, so the claim says `needs_refreshing` returns
True; the code compares the two decimal strings lexicographically and
raises `ValueError` instead. -/
theorem claim_C6_needs_refreshing_counterexample :
    (pyFloat ['9', '9', '9', '9', '9', '9', '9', '9', '9', '.', '5']).getD 0
        < (pyFloat ['1', '6', '0', '0', '0', '0', '0', '0', '0', '0', '.', '0']).getD 0
      ∧ needsRefreshing (some ['9', '9', '9', '9', '9', '9', '9', '9', '9', '.', '5'])
          ['1', '6', '0', '0', '0', '0', '0', '0', '0', '0', '.', '0']
        = Except.error PyErr.valueError
      ∧ needsRefreshing (some ['9', '9', '9', '9', '9', '9', '9', '9', '9', '.', '5'])
          ['1', '6', '0', '0', '0', '0', '0', '0', '0', '0', '.', '0']
        ≠ Except.ok true := by
  refine ⟨?_, ?_, ?_⟩
  · have h1 : pyFloat ['9', '9', '9', '9', '9', '9', '9', '9', '9', '.', '5']
        = some (((999999999 : Nat) : Rat) + ((5 : Nat) : Rat) / 10 ^ 1) := rfl
    have h2 : pyFloat ['1', '6', '0', '0', '0', '0', '0', '0', '0', '0', '.', '0']
        = some (((1600000000 : Nat) : Rat) + ((0 : Nat) : Rat) / 10 ^ 1) := rfl
    rw [h1, h2]
    simp only [Option.getD_some]
    norm_num
  · rfl
  · intro h
    rw [show needsRefreshing (some ['9', '9', '9', '9', '9', '9', '9', '9', '9', '.', '5'])
          ['1', '6', '0', '0', '0', '0', '0', '0', '0', '0', '.', '0']
        = Except.error PyErr.valueError from rfl] at h
    exact Except.noConfusion h

/-- C6 (amended): `needs_refreshing` returns True exactly when no
`Loaded` record exists or the recorded mtime string is lexicographically
smaller than the on-disk mtime string, and raises `ValueError` exactly
when the recorded string is lexicographically greater (the comparison
is on the stored decimal strings, not on the numeric times); a
`refresh_files` pass on which no file raises rediffs precisely the
files whose comparison reports them modified since loading. -/
theorem claim_C6_needs_refreshing (tbl : PyStr → Option PyStr)
    (files : List (PyStr × PyStr))
    (hok : ∀ fp ∈ files, ∀ t, tbl fp.1 = some t → pyStrLt fp.2 t = false) :
    (∀ (recorded : Option PyStr) (current : PyStr),
        needsRefreshing recorded current = Except.ok true
          ↔ (recorded = none ∨ ∃ t, recorded = some t ∧ pyStrLt t current = true))
    ∧ (∀ (recorded : Option PyStr) (current : PyStr),
        needsRefreshing recorded current = Except.error PyErr.valueError
          ↔ ∃ t, recorded = some t ∧ pyStrLt current t = true)
    ∧ refreshFiles tbl files
        = Except.ok ((files.filter (fileNeedsRefresh tbl)).map Prod.fst) := by
  refine ⟨?_, ?_, ?_⟩
  · intro recorded current
    cases recorded with
    | none => simp [needsRefreshing]
    | some t =>
        by_cases hlt : pyStrLt current t = true
        · simp [needsRefreshing, hlt, pyStrLt_asymm _ _ hlt]
        · simp [needsRefreshing, hlt]
  · intro recorded current
    cases recorded with
    | none => simp [needsRefreshing]
    | some t =>
        by_cases hlt : pyStrLt current t = true <;>
          simp [needsRefreshing, hlt]
  · induction files with
    | nil => rfl
    | cons fp rest ih =>
        have hfp : needsRefreshing (tbl fp.1) fp.2
            = Except.ok (fileNeedsRefresh tbl fp) := by
          cases htbl : tbl fp.1 with
          | none => simp [needsRefreshing, fileNeedsRefresh, htbl]
          | some t =>
              have := hok fp (List.mem_cons_self _ _) t htbl
              simp [needsRefreshing, fileNeedsRefresh, htbl, this]
        have ih' := ih (fun fp' h' t ht => hok fp' (List.mem_cons_of_mem _ h') t ht)
        rw [refreshFiles, hfp, ih']
        cases hb : fileNeedsRefresh tbl fp <;> simp [List.filter_cons, hb]

theorem claim_C6_needs_refreshing_witness :
    refreshFiles (fun _ => none) [(['f'], ['1'])] = Except.ok [['f']] := by
  have h := (claim_C6_needs_refreshing (fun _ => none) [(['f'], ['1'])]
    (fun fp _ t ht => Option.noConfusion ht)).2.2
  exact h.trans rfl

/-! ### file_handling.py / date_handling.py: ordinal dates

`filename_to_ordinal_date` parses `mm-dd-yyyy` from the filename with
`strptime` (which validates the calendar date) and returns
`date.toordinal()`, the proleptic-Gregorian day count with
`0001-01-01` as day 1.  A valid daily-report filename is modelled by
its parsed `(year, month, day)` triple. -/

abbrev DateT := Nat × Nat × Nat

/-- `calendar.isleap`, as used by `datetime.date`. -/
def isLeapYear (y : Nat) : Bool :=
  (y % 4 == 0 && y % 100 != 0) || y % 400 == 0

/-- Days in a month of the proleptic Gregorian calendar. -/
def daysInMonth (leap : Bool) (m : Nat) : Nat :=
  match m with
  | 1 => 31
  | 2 => if leap then 29 else 28
  | 3 => 31
  | 4 => 30
  | 5 => 31
  | 6 => 30
  | 7 => 31
  | 8 => 31
  | 9 => 30
  | 10 => 31
  | 11 => 30
  | 12 => 31
  | _ => 0

/-- Days before month `m` in a year (`_days_before_month`). -/
def daysBeforeMonth (leap : Bool) : Nat → Nat
  | 0 => 0
  | 1 => 0
  | m + 2 => daysBeforeMonth leap (m + 1) + daysInMonth leap (m + 1)

/-- Days before January 1 of year `y` (`_days_before_year`):
`365*(y-1) + (y-1)//4 - (y-1)//100 + (y-1)//400`. -/
def daysBeforeYear (y : Nat) : Nat :=
  365 * (y - 1) + (y - 1) / 4 - (y - 1) / 100 + (y - 1) / 400

/-- `datetime.date(y, m, d).toordinal()`. -/
def toOrdinal : DateT → Nat
  | (y, m, d) => daysBeforeYear y + daysBeforeMonth (isLeapYear y) m + d

/-- The dates `strptime` accepts: a real proleptic-Gregorian date. -/
def ValidDate : DateT → Prop
  | (y, m, d) => 1 ≤ y ∧ 1 ≤ m ∧ m ≤ 12 ∧ 1 ≤ d ∧ d ≤ daysInMonth (isLeapYear y) m

/-- The calendar successor of a date. -/
def nextDate : DateT → DateT
  | (y, m, d) =>
      if d < daysInMonth (isLeapYear y) m then (y, m, d + 1)
      else if m < 12 then (y, m + 1, 1)
      else (y + 1, 1, 1)

/-- Calendar order on date triples. -/
def dateLt : DateT → DateT → Prop
  | (y1, m1, d1), (y2, m2, d2) =>
      y1 < y2 ∨ (y1 = y2 ∧ (m1 < m2 ∨ (m1 = m2 ∧ d1 < d2)))

/-- Sorting key order used by `sorted(filtered, key=filename_to_ordinal_date)`. -/
def ordKeyLe (a b : DateT) : Prop :=
  toOrdinal a ≤ toOrdinal b

instance : DecidableRel ordKeyLe :=
  fun a b => Nat.decLe (toOrdinal a) (toOrdinal b)

instance : IsTotal DateT ordKeyLe :=
  ⟨fun a b => Nat.le_total (toOrdinal a) (toOrdinal b)⟩

instance : IsTrans DateT ordKeyLe :=
  ⟨fun _ _ _ h1 h2 => Nat.le_trans h1 h2⟩

/-- `get_files`: the filenames matching the daily-report pattern,
sorted by `filename_to_ordinal_date` (a stable comparison sort). -/
def getFiles (files : List DateT) : List DateT :=
  files.insertionSort ordKeyLe

theorem isLeapYear_iff (y : Nat) :
    isLeapYear y = true ↔ ((y % 4 = 0 ∧ y % 100 ≠ 0) ∨ y % 400 = 0) := by
  simp [isLeapYear]

theorem leapIte (y : Nat) :
    (if isLeapYear y then (1 : Nat) else 0)
      = (if (y % 4 = 0 ∧ y % 100 ≠ 0) ∨ y % 400 = 0 then 1 else 0) := by
  by_cases h : (y % 4 = 0 ∧ y % 100 ≠ 0) ∨ y % 400 = 0
  · rw [if_pos h, if_pos ((isLeapYear_iff y).mpr h)]
  · rw [if_neg h, if_neg (fun hb => h ((isLeapYear_iff y).mp hb))]

theorem daysBeforeMonth_succ (leap : Bool) (m : Nat) (hm : 1 ≤ m) :
    daysBeforeMonth leap (m + 1) = daysBeforeMonth leap m + daysInMonth leap m := by
  cases m with
  | zero => exact absurd hm (by omega)
  | succ k => rfl

set_option maxHeartbeats 1000000 in
theorem daysBeforeYear_succ (y : Nat) (hy : 1 ≤ y) :
    daysBeforeYear (y + 1)
      = daysBeforeYear y + 365 + (if isLeapYear y then 1 else 0) := by
  obtain ⟨k, rfl⟩ : ∃ k, y = k + 1 := ⟨y - 1, by omega⟩
  rw [leapIte]
  simp only [daysBeforeYear, Nat.add_sub_cancel]
  split_ifs with h
  · omega
  · by_cases h4 : (k + 1) % 4 = 0
    · have h100 : (k + 1) % 100 = 0 := by
        by_contra hc
        exact h (Or.inl ⟨h4, hc⟩)
      have h400 : ¬ (k + 1) % 400 = 0 := fun hc => h (Or.inr hc)
      omega
    · have h400 : ¬ (k + 1) % 400 = 0 := fun hc => h (Or.inr hc)
      clear h
      omega

theorem daysBeforeYear_le_succ (y : Nat) :
    daysBeforeYear y ≤ daysBeforeYear (y + 1) := by
  unfold daysBeforeYear
  omega

theorem daysBeforeYear_mono (y1 y2 : Nat) (h : y1 ≤ y2) :
    daysBeforeYear y1 ≤ daysBeforeYear y2 := by
  induction y2, h using Nat.le_induction with
  | base => exact Nat.le_refl _
  | succ n _ ih => exact Nat.le_trans ih (daysBeforeYear_le_succ n)

theorem dbm_dim_le :
    ∀ (leap : Bool) (m : Nat), m < 13 →
      daysBeforeMonth leap m + daysInMonth leap m
        ≤ 365 + (if leap then 1 else 0) := by
  decide

theorem dbm_step_le :
    ∀ (leap : Bool) (b : Nat), b < 13 → ∀ a, a < b →
      daysBeforeMonth leap a + daysInMonth leap a ≤ daysBeforeMonth leap b := by
  decide

theorem dbm12 (leap : Bool) :
    daysBeforeMonth leap 12 + 31 = 365 + (if leap then 1 else 0) := by
  cases leap <;> decide

theorem toOrdinal_le_year_end (y m d : Nat) (hv : ValidDate (y, m, d)) :
    toOrdinal (y, m, d) ≤ daysBeforeYear (y + 1) := by
  obtain ⟨hy, hm1, hm2, _, hd2⟩ := hv
  have h1 := dbm_dim_le (isLeapYear y) m (by omega)
  have h2 := daysBeforeYear_succ y hy
  simp only [toOrdinal]
  omega

theorem toOrdinal_strictMono (a b : DateT) (ha : ValidDate a) (hb : ValidDate b)
    (hlt : dateLt a b) : toOrdinal a < toOrdinal b := by
  obtain ⟨y1, m1, d1⟩ := a
  obtain ⟨y2, m2, d2⟩ := b
  obtain ⟨hy1, hm11, hm12, hd11, hd12⟩ := ha
  obtain ⟨hy2, hm21, hm22, hd21, hd22⟩ := hb
  simp only [dateLt] at hlt
  rcases hlt with hy | ⟨rfl, hm | ⟨rfl, hd⟩⟩
  · have h1 := toOrdinal_le_year_end y1 m1 d1 ⟨hy1, hm11, hm12, hd11, hd12⟩
    have h2 := daysBeforeYear_mono (y1 + 1) y2 hy
    simp only [toOrdinal] at *
    omega
  · have hstep := dbm_step_le (isLeapYear y1) m2 (by omega) m1 hm
    simp only [toOrdinal]
    omega
  · simp only [toOrdinal]
    omega

theorem toOrdinal_nextDate (y m d : Nat) (hv : ValidDate (y, m, d)) :
    toOrdinal (nextDate (y, m, d)) = toOrdinal (y, m, d) + 1 := by
  obtain ⟨hy, hm1, hm2, hd1, hd2⟩ := hv
  simp only [nextDate]
  split_ifs with h1 h2
  · simp only [toOrdinal]
    omega
  · have hstep := daysBeforeMonth_succ (isLeapYear y) m hm1
    simp only [toOrdinal]
    omega
  · have hm : m = 12 := by omega
    subst hm
    have hdim : daysInMonth (isLeapYear y) 12 = 31 := by cases isLeapYear y <;> rfl
    have hd : d = 31 := by omega
    subst hd
    have hsucc := daysBeforeYear_succ y hy
    have h12 := dbm12 (isLeapYear y)
    have hdbm1 : daysBeforeMonth (isLeapYear (y + 1)) 1 = 0 := rfl
    simp only [toOrdinal]
    omega

/-- C7: the ordinal-date key is sortable and diffable: stepping one
calendar day forward increments `toordinal` by exactly 1 (so ordinal
differences count days), a strictly earlier valid calendar date has a
strictly smaller ordinal regardless of year, and `get_files` returns
the matching filenames sorted by that key, hence chronologically. -/
theorem claim_C7_ordinal_date_key :
    (∀ v : DateT, ValidDate v → toOrdinal (nextDate v) = toOrdinal v + 1)
    ∧ (∀ a b : DateT, ValidDate a → ValidDate b → dateLt a b →
        toOrdinal a < toOrdinal b)
    ∧ (∀ files : List DateT,
        (getFiles files).Sorted ordKeyLe
        ∧ (getFiles files).Perm files
        ∧ (getFiles files).Pairwise
            (fun x z => ValidDate x → ValidDate z → ¬ dateLt z x)) := by
  refine ⟨?_, toOrdinal_strictMono, ?_⟩
  · intro v hv
    obtain ⟨y, m, d⟩ := v
    exact toOrdinal_nextDate y m d hv
  · intro files
    refine ⟨List.sorted_insertionSort ordKeyLe files,
      List.perm_insertionSort ordKeyLe files, ?_⟩
    exact List.Pairwise.imp
      (fun hle hx hz hlt =>
        absurd (toOrdinal_strictMono _ _ hz hx hlt) (Nat.not_lt.mpr hle))
      (List.sorted_insertionSort ordKeyLe files)

theorem claim_C7_ordinal_date_key_witness :
    toOrdinal (nextDate (2020, 2, 28)) = toOrdinal (2020, 2, 28) + 1
      ∧ toOrdinal (2020, 2, 28) < toOrdinal (2021, 1, 1) := by
  constructor
  · exact claim_C7_ordinal_date_key.1 (2020, 2, 28)
      ⟨by decide, by decide, by decide, by decide, by decide⟩
  · exact claim_C7_ordinal_date_key.2.1 (2020, 2, 28) (2021, 1, 1)
      ⟨by decide, by decide, by decide, by decide, by decide⟩
      ⟨by decide, by decide, by decide, by decide, by decide⟩
      (Or.inl (by decide))

/-! ### direct_plot.py: Day.fill_data_list / Day.fixup_missing_location_data

A datum is a `(ordinal_date, cases, deaths)` triple. -/

abbrev Triple := Int × Int × Int

/-- Python `range(a, b)` over ints. -/
def intRange (a b : Int) : List Int :=
  (List.range (b - a).toNat).map (fun (i : Nat) => a + (i : Int))

/-- The loop body of `Day.fill_data_list`, carrying `prev_date`,
`prev_cases` and `prev_deaths`. -/
def fillLoop : Int → Int → Int → List Triple → List Triple
  | _, _, _, [] => []
  | prevDate, prevCases, prevDeaths, datum :: rest =>
      (if datum.1 ≠ prevDate + 1 then
        (intRange (prevDate + 1) datum.1).map (fun od => (od, prevCases, prevDeaths))
      else [])
        ++ datum :: fillLoop datum.1 datum.2.1 datum.2.2 rest

/-- `Day.fill_data_list`; `data_list[0]` raises `IndexError` on an
empty list, modelled by `none`. -/
def fillDataList : List Triple → Option (List Triple)
  | [] => none
  | d :: rest => some (fillLoop (d.1 - 1) 0 0 (d :: rest))

/-- The triple the filled list holds at date `od`: the input triple of
that date if there is one, otherwise the date paired with the values of
the most recent earlier input triple (`pc`, `pd` before the first). -/
def fillVal (pc pd : Int) (l : List Triple) (od : Int) : Triple :=
  match (l.filter (fun w => decide (w.1 ≤ od))).getLast? with
  | some u => if u.1 = od then u else (od, u.2)
  | none => (od, pc, pd)

theorem intRange_nil (a b : Int) (h : b ≤ a) : intRange a b = [] := by
  rw [intRange]
  have : (b - a).toNat = 0 := by omega
  rw [this]
  rfl

theorem intRange_cons (a b : Int) (h : a < b) :
    intRange a b = a :: intRange (a + 1) b := by
  rw [intRange, intRange]
  have h1 : (b - a).toNat = (b - (a + 1)).toNat + 1 := by omega
  rw [h1, List.range_succ_eq_map, List.map_cons, List.map_map]
  congr 1
  · show a + ((0 : Nat) : Int) = a
    simp
  · apply List.map_congr_left
    intro i _
    show a + ((Nat.succ i : Nat) : Int) = (a + 1) + (i : Int)
    push_cast
    ring

theorem mem_intRange (a b od : Int) : od ∈ intRange a b ↔ a ≤ od ∧ od < b := by
  rw [intRange]
  simp only [List.mem_map, List.mem_range]
  constructor
  · rintro ⟨i, hi, rfl⟩
    omega
  · intro h
    exact ⟨(od - a).toNat, by omega, by omega⟩

theorem intRange_append (a b c : Int) (h1 : a ≤ b) (h2 : b ≤ c) :
    intRange a c = intRange a b ++ intRange b c := by
  obtain ⟨n, hn⟩ : ∃ n : Nat, b = a + n := ⟨(b - a).toNat, by omega⟩
  subst hn
  clear h1
  induction n generalizing a with
  | zero =>
      rw [show a + ((0 : Nat) : Int) = a by simp] at h2 ⊢
      rw [intRange_nil a a (le_refl a), List.nil_append]
  | succ k ih =>
      have hab : a < a + ((k + 1 : Nat) : Int) := by push_cast; omega
      have hk : a + ((k + 1 : Nat) : Int) = (a + 1) + ((k : Nat) : Int) := by
        push_cast
        ring
      rw [intRange_cons a c (by omega), intRange_cons a _ hab, List.cons_append]
      congr 1
      rw [hk] at h2 ⊢
      exact ih (a + 1) h2

theorem intRange_singleton (b : Int) : intRange b (b + 1) = [b] := by
  rw [intRange_cons b (b + 1) (by omega), intRange_nil (b + 1) (b + 1) (le_refl _)]

theorem intRange_head (a b : Int) (h : a ≤ b) :
    (intRange a (b + 1)).head? = some a := by
  rw [intRange_cons a (b + 1) (by omega)]
  rfl

theorem intRange_getLast (a b : Int) (h : a ≤ b) :
    (intRange a (b + 1)).getLast? = some b := by
  rw [intRange_append a b (b + 1) h (by omega), intRange_singleton,
    List.getLast?_concat]

theorem getLast?_cons (t : Triple) (rest : List Triple) :
    (t :: rest).getLast? = some (rest.getLast?.getD t) := by
  induction rest generalizing t with
  | nil => rfl
  | cons b bs ih =>
      rw [List.getLast?_cons_cons, ih b]
      rfl

theorem date_le_getLast (l : List Triple)
    (hs : l.Pairwise (fun a b => a.1 < b.1)) (u : Triple)
    (hu : l.getLast? = some u) : ∀ t ∈ l, t.1 ≤ u.1 := by
  induction l with
  | nil => intro t ht; exact absurd ht (List.not_mem_nil t)
  | cons a rest ih =>
      intro t ht
      obtain ⟨ha, hrest⟩ := List.pairwise_cons.mp hs
      cases hr : rest with
      | nil =>
          subst hr
          rw [getLast?_cons] at hu
          obtain rfl : a = u := by simpa using hu
          have ht' : t = a := by simpa using ht
          rw [ht']
      | cons b bs =>
          subst hr
          rw [List.getLast?_cons_cons] at hu
          have humem : u ∈ b :: bs := List.mem_of_mem_getLast? hu
          rcases List.mem_cons.mp ht with rfl | hmem
          · exact le_of_lt (ha u humem)
          · exact ih hrest hu t hmem

theorem filter_getLast_self (l : List Triple)
    (hs : l.Pairwise (fun a b => a.1 < b.1)) (t : Triple) (ht : t ∈ l) :
    (l.filter (fun w => decide (w.1 ≤ t.1))).getLast? = some t := by
  induction l with
  | nil => exact absurd ht (List.not_mem_nil t)
  | cons a rest ih =>
      obtain ⟨ha, hrest⟩ := List.pairwise_cons.mp hs
      rcases List.mem_cons.mp ht with rfl | hmem
      · rw [List.filter_cons, if_pos (by simp)]
        have hempty : rest.filter (fun w => decide (w.1 ≤ t.1)) = [] := by
          rw [List.filter_eq_nil_iff]
          intro u hu
          simp only [decide_eq_true_eq]
          exact fun hle => absurd (ha u hu) (by omega)
        rw [hempty]
        rfl
      · have hat : a.1 ≤ t.1 := le_of_lt (ha t hmem)
        rw [List.filter_cons, if_pos (by simpa using hat)]
        rw [getLast?_cons, ih hrest hmem]
        rfl

theorem fillVal_fst (pc pd : Int) (l : List Triple) (od : Int) :
    (fillVal pc pd l od).1 = od := by
  unfold fillVal
  cases h : (l.filter (fun w => decide (w.1 ≤ od))).getLast? with
  | none => rfl
  | some u =>
      show (if u.1 = od then u else (od, u.2)).1 = od
      by_cases h2 : u.1 = od
      · rw [if_pos h2]
        exact h2
      · rw [if_neg h2]

theorem fillVal_eq_self (pc pd : Int) (l : List Triple)
    (hs : l.Pairwise (fun a b => a.1 < b.1)) (t : Triple) (ht : t ∈ l) :
    fillVal pc pd l t.1 = t := by
  unfold fillVal
  rw [filter_getLast_self l hs t ht]
  show (if t.1 = t.1 then t else (t.1, t.2)) = t
  rw [if_pos rfl]

theorem fillLoop_eq :
    ∀ (l : List Triple) (prevDate pc pd : Int),
      l.Pairwise (fun a b => a.1 < b.1) →
      (∀ t ∈ l, prevDate < t.1) →
      fillLoop prevDate pc pd l
        = (intRange (prevDate + 1)
            (((l.getLast?.map (fun t => t.1)).getD prevDate) + 1)).map
            (fillVal pc pd l) := by
  intro l
  induction l with
  | nil =>
      intro prevDate pc pd _ _
      rw [show ((([] : List Triple).getLast?.map (fun t => t.1)).getD prevDate)
          = prevDate from rfl]
      rw [intRange_nil _ _ (by omega)]
      rfl
  | cons t rest ih =>
      intro prevDate pc pd hs hgt
      obtain ⟨hhead, hrest⟩ := List.pairwise_cons.mp hs
      have hpt : prevDate < t.1 := hgt t (List.mem_cons_self _ _)
      have htu : t.1 ≤ (rest.getLast?.getD t).1 := by
        cases hr : rest.getLast? with
        | none => exact le_refl _
        | some v =>
            have hv : v ∈ rest := List.mem_of_mem_getLast? hr
            exact le_of_lt (hhead v hv)
      have hL : ((rest.getLast?.map (fun t => t.1)).getD t.1)
          = (rest.getLast?.getD t).1 := by
        cases rest.getLast? <;> rfl
      have hA : ∀ od ∈ intRange (prevDate + 1) t.1,
          fillVal pc pd (t :: rest) od = (od, pc, pd) := by
        intro od hod
        have hod' : od < t.1 := ((mem_intRange _ _ _).mp hod).2
        unfold fillVal
        have hfil : (t :: rest).filter (fun w => decide (w.1 ≤ od)) = [] := by
          rw [List.filter_eq_nil_iff]
          intro w hw
          simp only [decide_eq_true_eq]
          rcases List.mem_cons.mp hw with rfl | hw'
          · omega
          · have := hhead w hw'
            omega
        rw [hfil]
        rfl
      have hC : ∀ od ∈ intRange (t.1 + 1) ((rest.getLast?.getD t).1 + 1),
          fillVal pc pd (t :: rest) od = fillVal t.2.1 t.2.2 rest od := by
        intro od hod
        have hod' : t.1 < od := by
          have := ((mem_intRange _ _ _).mp hod).1
          omega
        unfold fillVal
        rw [List.filter_cons, if_pos (by simp only [decide_eq_true_eq]; omega)]
        rw [getLast?_cons]
        cases hfr : (rest.filter (fun w => decide (w.1 ≤ od))).getLast? with
        | none =>
            show (if t.1 = od then t else (od, t.2)) = (od, t.2.1, t.2.2)
            rw [if_neg (by omega)]
        | some v => rfl
      have hgap : (if t.1 ≠ prevDate + 1 then
            (intRange (prevDate + 1) t.1).map (fun od => (od, pc, pd))
          else [])
          = (intRange (prevDate + 1) t.1).map
              (fun od => ((od, pc, pd) : Triple)) := by
        by_cases hq : t.1 = prevDate + 1
        · rw [if_neg (by simpa using hq), hq, intRange_nil _ _ (le_refl _)]
          rfl
        · rw [if_pos hq]
      show (if t.1 ≠ prevDate + 1 then
          (intRange (prevDate + 1) t.1).map (fun od => (od, pc, pd))
        else []) ++ t :: fillLoop t.1 t.2.1 t.2.2 rest = _
      rw [hgap, ih t.1 t.2.1 t.2.2 hrest hhead, hL, getLast?_cons]
      simp only [Option.map_some', Option.getD_some]
      rw [intRange_append (prevDate + 1) t.1 ((rest.getLast?.getD t).1 + 1)
        (by omega) (by omega), List.map_append]
      rw [intRange_cons t.1 ((rest.getLast?.getD t).1 + 1) (by omega),
        List.map_cons]
      congr 1
      · exact (List.map_congr_left hA).symm
      congr 1
      · exact (fillVal_eq_self pc pd (t :: rest) hs t (List.mem_cons_self _ _)).symm
      · exact (List.map_congr_left hC).symm

theorem head_date_le (l : List Triple)
    (hs : l.Pairwise (fun a b => a.1 < b.1)) (dh : Triple)
    (hh : l.head? = some dh) : ∀ t ∈ l, dh.1 ≤ t.1 := by
  cases l with
  | nil => cases hh
  | cons a rest =>
      obtain rfl : a = dh := by simpa using hh
      intro t ht
      rcases List.mem_cons.mp ht with rfl | hmem
      · exact le_refl _
      · exact le_of_lt ((List.pairwise_cons.mp hs).1 t hmem)

theorem fillDataList_eq (l : List Triple) (dh dl : Triple)
    (hs : l.Pairwise (fun a b => a.1 < b.1))
    (hh : l.head? = some dh) (hl : l.getLast? = some dl) :
    fillDataList l = some ((intRange dh.1 (dl.1 + 1)).map (fillVal 0 0 l)) := by
  cases l with
  | nil => cases hh
  | cons d rest =>
      obtain rfl : dh = d := by
        have := hh
        simp only [List.head?_cons, Option.some.injEq] at this
        exact this.symm
      show some (fillLoop (dh.1 - 1) 0 0 (dh :: rest)) = _
      rw [fillLoop_eq (dh :: rest) (dh.1 - 1) 0 0 hs
        (fun t ht => by have := head_date_le (dh :: rest) hs dh (by rfl) t ht; omega)]
      rw [hl]
      simp only [Option.map_some', Option.getD_some]
      rw [show dh.1 - 1 + 1 = dh.1 by omega]

/-! The truncation loop of `fixup_missing_location_data`: scan the
parent list; at the first entry whose date is not before the location's
first date, exit (`none`) unless the dates match, in which case the
parent is truncated there (`some (some _)`); if the scan falls off the
end without breaking, the parent is left unchanged (`some none`). -/

def truncScan (locFirst : Int) : List Triple → Option (Option (List Triple))
  | [] => some none
  | t :: rest =>
      if locFirst > t.1 then
        match truncScan locFirst rest with
        | none => none
        | some none => some none
        | some (some l') => some (some l')
      else
        if t.1 = locFirst then some (some (t :: rest)) else none

def truncateParent (par : List Triple) (locFirst : Int) : Option (List Triple) :=
  match truncScan locFirst par with
  | none => none
  | some none => some par
  | some (some l') => some l'

/-- The sanity checks and double fill at the end of
`fixup_missing_location_data` (`sys.exit` is modelled by `none`). -/
def fixupChecks (loc par2 : List Triple) : Option (List Triple × List Triple) :=
  match loc.getLast?, par2.getLast? with
  | some ll, some pl =>
      if ll.1 ≠ pl.1 then none
      else if par2.length < loc.length then none
      else
        match fillDataList loc, fillDataList par2 with
        | some fl, some fp =>
            if fl.length ≠ fp.length then none else some (fl, fp)
        | _, _ => none
  | _, _ => none

/-- `Day.fixup_missing_location_data` (an empty list raises
`IndexError` at `[0]`, modelled by `none`). -/
def fixupMissing : List Triple → List Triple → Option (List Triple × List Triple)
  | [], _ => none
  | _ :: _, [] => none
  | lh :: ltail, ph :: ptail =>
      if lh.1 = ph.1 then fixupChecks (lh :: ltail) (ph :: ptail)
      else if lh.1 < ph.1 then none
      else
        match truncateParent (ph :: ptail) lh.1 with
        | none => none
        | some par2 => fixupChecks (lh :: ltail) par2

theorem truncScan_none_all (locFirst : Int) :
    ∀ (par : List Triple), truncScan locFirst par = some none →
      ∀ t ∈ par, t.1 < locFirst := by
  intro par
  induction par with
  | nil => intro _ t ht; exact absurd ht (List.not_mem_nil t)
  | cons a rest ih =>
      intro h t ht
      rw [truncScan] at h
      split at h
      · rename_i ha
        rcases List.mem_cons.mp ht with rfl | hmem
        · omega
        · split at h
          · cases h
          · exact ih (by assumption) t hmem
          · cases h
      · split at h <;> cases h

theorem truncScan_break (locFirst : Int) :
    ∀ (par l' : List Triple), truncScan locFirst par = some (some l') →
      (∃ hd, l'.head? = some hd ∧ hd.1 = locFirst) ∧ l'.Sublist par := by
  intro par
  induction par with
  | nil => intro l' h; cases h
  | cons a rest ih =>
      intro l' h
      rw [truncScan] at h
      split at h
      · split at h
        · cases h
        · cases h
        · rename_i hscan
          obtain rfl := Option.some.inj (Option.some.inj h)
          obtain ⟨hd1, hd2⟩ := ih _ hscan
          exact ⟨hd1, hd2.cons a⟩
      · split at h
        · rename_i heq
          obtain rfl := Option.some.inj (Option.some.inj h)
          exact ⟨⟨a, rfl, heq⟩, List.Sublist.refl _⟩
        · cases h

theorem fixupChecks_some (loc par2 r1 r2 : List Triple)
    (h : fixupChecks loc par2 = some (r1, r2)) :
    ∃ ll pl, loc.getLast? = some ll ∧ par2.getLast? = some pl ∧ ll.1 = pl.1
      ∧ fillDataList loc = some r1 ∧ fillDataList par2 = some r2
      ∧ r1.length = r2.length := by
  unfold fixupChecks at h
  split at h
  · rename_i ll pl hll hpl
    split at h
    · cases h
    · rename_i hne
      split at h
      · cases h
      · split at h
        · rename_i fl fp hfl hfp
          split at h
          · cases h
          · rename_i hlen
            have h' : fl = r1 ∧ fp = r2 := by simpa using h
            obtain ⟨rfl, rfl⟩ := h'
            exact ⟨ll, pl, hll, hpl, by omega, hfl, hfp, by omega⟩
        · cases h
  · cases h

theorem fixup_common (l par2 r1 r2 : List Triple) (dh dl p2h : Triple)
    (hs : l.Pairwise (fun a b => a.1 < b.1))
    (hh : l.head? = some dh) (hl : l.getLast? = some dl)
    (hp2 : par2.Pairwise (fun a b => a.1 < b.1))
    (hph2 : par2.head? = some p2h) (hp2h : p2h.1 = dh.1)
    (hfc : fixupChecks l par2 = some (r1, r2)) :
    r1.length = r2.length
      ∧ r1.head?.map (fun t => t.1) = r2.head?.map (fun t => t.1)
      ∧ r1.getLast?.map (fun t => t.1) = r2.getLast?.map (fun t => t.1) := by
  obtain ⟨ll, pl, hll, hpl, hllpl, hf1, hf2, hlen⟩ :=
    fixupChecks_some _ _ _ _ hfc
  obtain rfl : dl = ll := Option.some.inj (hl.symm.trans hll)
  have hdh_mem : dh ∈ l := List.mem_of_mem_head? (by rw [hh]; rfl)
  have hp2h_mem : p2h ∈ par2 := List.mem_of_mem_head? (by rw [hph2]; rfl)
  have hb1 : dh.1 ≤ dl.1 := date_le_getLast l hs dl hll dh hdh_mem
  have hb2 : p2h.1 ≤ pl.1 := date_le_getLast par2 hp2 pl hpl p2h hp2h_mem
  have e1 : r1 = (intRange dh.1 (dl.1 + 1)).map (fillVal 0 0 l) :=
    Option.some.inj (hf1.symm.trans (fillDataList_eq l dh dl hs hh hll))
  have e2 : r2 = (intRange p2h.1 (pl.1 + 1)).map (fillVal 0 0 par2) :=
    Option.some.inj (hf2.symm.trans (fillDataList_eq par2 p2h pl hp2 hph2 hpl))
  refine ⟨hlen, ?_, ?_⟩
  · rw [e1, e2, List.head?_map, List.head?_map, intRange_head _ _ hb1,
      intRange_head _ _ hb2]
    simp only [Option.map_some', fillVal_fst]
    rw [hp2h]
  · rw [e1, e2, List.getLast?_map, List.getLast?_map, intRange_getLast _ _ hb1,
      intRange_getLast _ _ hb2]
    simp only [Option.map_some', fillVal_fst]
    rw [hllpl]

/-- C8: on a non-empty input with strictly increasing dates,
`fill_data_list` returns the list whose dates are exactly the
consecutive integers from the first input date to the last, in which
every input triple appears unchanged and every inserted date carries
the cases and deaths of the most recent preceding input date;
consequently `fixup_missing_location_data`, when it succeeds, returns
location and parent lists of equal length with equal first and last
dates. -/
theorem claim_C8_fill_and_fixup (l : List Triple) (dh dl : Triple)
    (hs : l.Pairwise (fun a b => a.1 < b.1))
    (hh : l.head? = some dh) (hl : l.getLast? = some dl) :
    ∃ res, fillDataList l = some res
      ∧ res.map (fun t => t.1) = intRange dh.1 (dl.1 + 1)
      ∧ (∀ t ∈ l, t ∈ res)
      ∧ (∀ t ∈ res, t ∉ l →
          ∃ u ∈ l, u.1 < t.1 ∧ u.2 = t.2 ∧ ∀ w ∈ l, w.1 < t.1 → w.1 ≤ u.1)
      ∧ (∀ (p r1 r2 : List Triple), p.Pairwise (fun a b => a.1 < b.1) →
          fixupMissing l p = some (r1, r2) →
          r1.length = r2.length
          ∧ r1.head?.map (fun t => t.1) = r2.head?.map (fun t => t.1)
          ∧ r1.getLast?.map (fun t => t.1) = r2.getLast?.map (fun t => t.1)) := by
  have hdh_mem : dh ∈ l := List.mem_of_mem_head? (by rw [hh]; rfl)
  have hdl_le : dh.1 ≤ dl.1 := date_le_getLast l hs dl hl dh hdh_mem
  refine ⟨(intRange dh.1 (dl.1 + 1)).map (fillVal 0 0 l),
    fillDataList_eq l dh dl hs hh hl, ?_, ?_, ?_, ?_⟩
  · rw [List.map_map]
    have hid : ∀ od ∈ intRange dh.1 (dl.1 + 1),
        ((fun t : Triple => t.1) ∘ fillVal 0 0 l) od = id od :=
      fun od _ => fillVal_fst 0 0 l od
    rw [List.map_congr_left hid, List.map_id]
  · intro t ht
    have h1 : dh.1 ≤ t.1 := head_date_le l hs dh hh t ht
    have h2 : t.1 ≤ dl.1 := date_le_getLast l hs dl hl t ht
    exact List.mem_map.mpr ⟨t.1, (mem_intRange _ _ _).mpr ⟨h1, by omega⟩,
      fillVal_eq_self 0 0 l hs t ht⟩
  · intro t htres htnot
    obtain ⟨od, hod, rfl⟩ := List.mem_map.mp htres
    obtain ⟨hod1, hod2⟩ := (mem_intRange _ _ _).mp hod
    have hdhf : dh ∈ l.filter (fun w => decide (w.1 ≤ od)) :=
      List.mem_filter.mpr ⟨hdh_mem, by simp only [decide_eq_true_eq]; omega⟩
    cases hfl : (l.filter (fun w => decide (w.1 ≤ od))).getLast? with
    | none =>
        exfalso
        rw [List.getLast?_eq_none_iff] at hfl
        rw [hfl] at hdhf
        exact List.not_mem_nil dh hdhf
    | some u =>
        have hum := List.mem_filter.mp (List.mem_of_mem_getLast? hfl)
        have humem : u ∈ l := hum.1
        have hule : u.1 ≤ od := by simpa using hum.2
        by_cases he : u.1 = od
        · exfalso
          apply htnot
          have hval : fillVal 0 0 l od = u := by
            unfold fillVal
            rw [hfl]
            show (if u.1 = od then u else (od, u.2)) = u
            rw [if_pos he]
          rw [hval]
          exact humem
        · have hval : fillVal 0 0 l od = (od, u.2) := by
            unfold fillVal
            rw [hfl]
            show (if u.1 = od then u else (od, u.2)) = (od, u.2)
            rw [if_neg he]
          rw [hval]
          refine ⟨u, humem, ?_, rfl, ?_⟩
          · show u.1 < od
            omega
          · intro w hw hwlt
            have hwlt' : w.1 < od := hwlt
            have hwf : w ∈ l.filter (fun w => decide (w.1 ≤ od)) :=
              List.mem_filter.mpr ⟨hw, by simp only [decide_eq_true_eq]; omega⟩
            exact date_le_getLast _ (hs.filter _) u hfl w hwf
  · intro p r1 r2 hp hfix
    cases l with
    | nil => cases hh
    | cons lh ltail =>
        obtain rfl : dh = lh := by
          have := hh
          simp only [List.head?_cons, Option.some.injEq] at this
          exact this.symm
        cases p with
        | nil => cases hfix
        | cons ph ptail =>
            rw [fixupMissing] at hfix
            split at hfix
            · rename_i heq
              exact fixup_common (dh :: ltail) (ph :: ptail) r1 r2 dh dl ph hs hh
                hl hp (by rfl) heq.symm hfix
            · split at hfix
              · cases hfix
              · rename_i hne hge
                split at hfix
                · cases hfix
                · rename_i par2 htr
                  rw [truncateParent] at htr
                  split at htr
                  · cases htr
                  · rename_i hscan
                    obtain rfl : ph :: ptail = par2 := Option.some.inj htr
                    exfalso
                    obtain ⟨ll, pl, hll, hpl, hllpl, _, _, _⟩ :=
                      fixupChecks_some _ _ _ _ hfix
                    obtain rfl : dl = ll := Option.some.inj (hl.symm.trans hll)
                    have hpl_mem : pl ∈ ph :: ptail := List.mem_of_mem_getLast? hpl
                    have hplt := truncScan_none_all dh.1 (ph :: ptail) hscan pl hpl_mem
                    omega
                  · rename_i l2 hscan
                    obtain rfl : l2 = par2 := Option.some.inj htr
                    obtain ⟨⟨hd2, hhd2, hhd2eq⟩, hsub⟩ :=
                      truncScan_break dh.1 (ph :: ptail) l2 hscan
                    exact fixup_common (dh :: ltail) l2 r1 r2 dh dl hd2 hs hh hl
                      (List.Pairwise.sublist hsub hp) hhd2 hhd2eq hfix

theorem claim_C8_fill_and_fixup_witness :
    ∃ res,
      fillDataList
          [((1 : Int), (10 : Int), (2 : Int)), ((3 : Int), (20 : Int), (5 : Int))]
        = some res
      ∧ ((1 : Int), (10 : Int), (2 : Int)) ∈ res := by
  obtain ⟨res, h1, _, h3, _, _⟩ := claim_C8_fill_and_fixup
    [((1 : Int), (10 : Int), (2 : Int)), ((3 : Int), (20 : Int), (5 : Int))]
    ((1 : Int), (10 : Int), (2 : Int)) ((3 : Int), (20 : Int), (5 : Int))
    (by decide) rfl rfl
  exact ⟨res, h1, h3 _ (by simp)⟩
